import Mathlib

/-!
# Verification of daytona pkg/secrets (secrets.go)

Shallow embedding of the definition-resolution and fetch pipeline from
`pkg/secrets/secrets.go`, together with proofs of the specification claims.

Go values of type `interface` are modelled by `GoValue`; Go `map[string]T`
is modelled by an association list with overwriting insertion; process
termination via `log.Fatal*` is modelled by an explicit `fatal` outcome and
a runtime panic from a failed type assertion by `panicked`.
-/

/-- Model of a Go `interface` value as it appears in Vault secret data:
a string, a slice, or some other (non-string, non-slice) value. -/
inductive GoValue where
  | str (s : String)
  | arr (xs : List GoValue)
  | othr

/-- Predicate `hasPfxL p s`: the character list `p` is a prefix of `s`
(model of Go `strings.HasPrefix` on the underlying characters). -/
def hasPfxL : List Char → List Char → Bool
  | [], _ => true
  | _ :: _, [] => false
  | a :: as, b :: bs => a == b && hasPfxL as bs

/-- Go `strings.HasPrefix`. -/
def hasPfx (s pfx : String) : Bool := hasPfxL pfx.toList s.toList

/-- Go `strings.TrimPrefix`: drops `pfx` from the front of `s` when present,
otherwise returns `s` unchanged. -/
def trimPfx (s pfx : String) : String :=
  if hasPfx s pfx then String.mk (s.toList.drop pfx.toList.length) else s

/-- Split a character list on `/`, keeping empty segments
(model of splitting a path into its slash-separated elements). -/
def splitSlash : List Char → List (List Char)
  | [] => [[]]
  | c :: cs =>
    let rest := splitSlash cs
    if c = '/' then [] :: rest
    else match rest with
      | [] => [[c]]
      | r :: rs => (c :: r) :: rs

/-- The element-stack pass of Go `path.Clean`: drops empty and `.` elements,
resolves `..` against the preceding element (or drops it at the root when
`rooted`), accumulating in reverse. -/
def cleanElems (rooted : Bool) : List (List Char) → List (List Char) → List (List Char)
  | acc, [] => acc.reverse
  | acc, e :: rest =>
    if e = [] ∨ e = ['.'] then cleanElems rooted acc rest
    else if e = ['.', '.'] then
      match acc with
      | [] => if rooted then cleanElems rooted [] rest
              else cleanElems rooted [['.', '.']] rest
      | a :: as =>
        if a = ['.', '.'] then cleanElems rooted (e :: a :: as) rest
        else cleanElems rooted as rest
    else cleanElems rooted (e :: acc) rest

/-- Join character-list segments with `/`. -/
def joinSlash : List (List Char) → List Char
  | [] => []
  | [e] => e
  | e :: rest => e ++ '/' :: joinSlash rest

/-- Go `path.Clean`: lexical simplification of a slash-separated path. -/
def pathClean (p : String) : String :=
  if p = "" then "." else
  let cs := p.toList
  let rooted := hasPfxL ['/'] cs
  let out := joinSlash (cleanElems rooted [] (splitSlash cs))
  if rooted then String.mk ('/' :: out)
  else if out = [] then "." else String.mk out

/-- Go `path.Join` restricted to two elements, as called in `Walk`:
skip leading empty elements, join the rest with `/`, and `Clean`. -/
def pathJoin (a b : String) : String :=
  if a ≠ "" then pathClean (a ++ "/" ++ b)
  else if b ≠ "" then pathClean b
  else ""

/-- The file part of Go `path.Split`: everything after the final slash
(the whole string when there is no slash). -/
def pathSplitFile (p : String) : String :=
  String.mk ((p.toList.reverse.takeWhile (fun c => c ≠ '/')).reverse)

/-- Lookup in an association list modelling a Go map. -/
def lookupKV (m : List (String × String)) (k : String) : Option String :=
  match m.find? (fun p => p.1 == k) with
  | some p => some p.2
  | none => none

/-- Overwriting insertion into an association list modelling a Go map
assignment `m[k] = v`: replaces the value in place when the key exists,
appends otherwise. -/
def insertKV (m : List (String × String)) (k v : String) : List (String × String) :=
  match m with
  | [] => [(k, v)]
  | (k0, v0) :: rest =>
    if k0 == k then (k, v) :: rest else (k0, v0) :: insertKV rest k v

/-- Environment snapshot: association list of variable names to values. -/
abbrev EnvList := List (String × String)

/-- Go `os.Getenv`: first value bound to `k`, or `""` when unset. -/
def getenv (env : EnvList) (k : String) : String :=
  match env.find? (fun p => p.1 == k) with
  | some p => p.2
  | none => ""

/-! ## Data model (secrets.go lines 33-51, vault api.Secret) -/

/-- The constant `defaultKeyName = "value"` (secrets.go line 34). -/
def defaultKeyName : String := "value"

/-- The constant `secretDestinationPrefix` (secrets.go line 35). -/
def secretDestinationPfx : String := "DAYTONA_SECRET_DESTINATION_"

/-- The constant `secretStoragePathPrefix` (secrets.go line 36). -/
def secretStoragePathPfx : String := "VAULT_SECRET_"

/-- The constant `secretsStoragePathPrefix` (secrets.go line 37). -/
def secretsStoragePathPfx : String := "VAULT_SECRETS_"

/-- The vault `api.Secret` as consumed by this package: only its `Data`
field (`map[string]interface` in Go) is used. -/
structure ApiSecret where
  Data : List (String × GoValue)

/-- The `SecretDefinition` record (secrets.go lines 42-51). -/
structure SecretDefinition where
  EnvKey : String
  SecretID : String
  SecretApex : String
  OutputDestination : String
  secrets : List (String × String)
  plural : Bool
  paths : List String
deriving DecidableEq

/-- The configuration fields consumed by `SecretFetcher`:
`config.Workers`, `config.SecretPayloadPath`, `config.SecretEnv`. -/
structure Config where
  Workers : Nat
  SecretPayloadPath : String
  SecretEnv : Bool
deriving DecidableEq

/-- Modelled from the spec: `SecretResult`, declared in the package's
parallel-reader file which is absent from the sources; the spec's
FetchResult is a path, an attributes-mapping-or-absent, and an optional
error, matching the three field accesses `KeyPath`, `Secret`, `Err`
made by secrets.go. -/
structure SecretResult where
  KeyPath : String
  Secret : Option ApiSecret
  Err : Option String

/-- The secret-store client surface consumed by secrets.go:
`Logical().Read(path)` and `Logical().List(path)`, each returning a
possibly-absent `api.Secret` and a possibly-nil error. -/
structure StoreClient where
  read : String → Option ApiSecret × Option String
  list : String → Option ApiSecret × Option String

/-- Outcome of a code region that can terminate the process:
normal value, `log.Fatal` with a message, or a runtime panic
(from a failed `interface` type assertion). -/
inductive Outcome (α : Type) where
  | ok (a : α)
  | fatal (msg : String)
  | panicked

/-! ## Definition resolution (secrets.go lines 64-135) -/

/-- The prefix classification switch (secrets.go lines 83-92): a name with
the singular prefix yields its suffix and `plural=false`; one with the
plural prefix yields its suffix and `plural=true`; others fall to the
`default: continue` branch. -/
def classify (envKey : String) : Option (String × Bool) :=
  if hasPfx envKey secretStoragePathPfx then
    some (trimPfx envKey secretStoragePathPfx, false)
  else if hasPfx envKey secretsStoragePathPfx then
    some (trimPfx envKey secretsStoragePathPfx, true)
  else none

/-- Destination lookup (secrets.go lines 97-103): the destination prefix
concatenated with the secret id as given, then lowercased, then
uppercased; first non-empty value wins, else empty. -/
def resolveDestination (env : EnvList) (secretID : String) : String :=
  if getenv env (secretDestinationPfx ++ secretID) ≠ "" then
    getenv env (secretDestinationPfx ++ secretID)
  else if getenv env (secretDestinationPfx ++ secretID.toLower) ≠ "" then
    getenv env (secretDestinationPfx ++ secretID.toLower)
  else if getenv env (secretDestinationPfx ++ secretID.toUpper) ≠ "" then
    getenv env (secretDestinationPfx ++ secretID.toUpper)
  else ""

/-- Construction of one `SecretDefinition` from an environment variable
name (secrets.go lines 72-103): skip when the value is empty, classify by
prefix, record apex and paths, resolve the destination. `none` models the
`continue` branches. -/
def mkDef (env : EnvList) (envKey : String) : Option SecretDefinition :=
  let apex := getenv env envKey
  if apex == "" then none
  else
    match classify envKey with
    | none => none
    | some (sid, pl) =>
      some { EnvKey := envKey, SecretID := sid, SecretApex := apex,
             OutputDestination := resolveDestination env sid,
             secrets := [], plural := pl,
             paths := if pl then [] else [apex] }

/-- The per-key body of `Walk`'s loop (secrets.go lines 245-251): each
listed entry must be a string, and is joined onto the apex. -/
def walkKeys (apex : String) : List GoValue → Except String (List String)
  | [] => .ok []
  | GoValue.str k :: rest => (walkKeys apex rest).map (fun ps => pathJoin apex k :: ps)
  | _ :: _ => .error "non-string secret name"

/-- Function `Walk` (secrets.go lines 229-254), functionalized: returns the list of
paths assigned to `sd.paths` on success. Fails when the list call errors,
when the listing is absent or has an empty data map, when the data map has
no well-typed `keys` sequence, or when an entry is not a string. -/
def Walk (client : StoreClient) (apex : String) : Except String (List String) :=
  match client.list apex with
  | (_, some e) => .error ("there was a problem listing " ++ apex ++ ": " ++ e)
  | (none, none) => .error ("no secrets found under: " ++ apex)
  | (some l, none) =>
    if l.Data.length == 0 then .error ("no secrets found under: " ++ apex)
    else
      match l.Data.find? (fun p => p.1 == "keys") with
      | some (_, GoValue.arr ks) => walkKeys apex ks
      | _ => .error "unexpected list.Data format"

/-- The key under which the merge loop of `addSecrets` stores an attribute
named `k` of a result whose friendly key name is `keyName`
(secrets.go lines 216-221). -/
def storedKeyName (keyName k : String) : String :=
  if k == defaultKeyName then keyName else keyName ++ "_" ++ k

/-- The attribute-merge loop of `addSecrets` (secrets.go lines 215-223):
an attribute named `defaultKeyName` is stored under the friendly key name,
any other under the underscore-joined expansion; the unchecked type
assertion on a non-string value panics. -/
def mergeData (keyName : String) :
    List (String × GoValue) → List (String × String) → Outcome (List (String × String))
  | [], secrets => .ok secrets
  | (k, v) :: rest, secrets =>
    match v with
    | GoValue.str s =>
      if k == defaultKeyName then mergeData keyName rest (insertKV secrets keyName s)
      else mergeData keyName rest (insertKV secrets (keyName ++ "_" ++ k) s)
    | _ => .panicked

/-- Function `addSecrets` (secrets.go lines 198-225) acting on the definition's
secrets map: fatal on a result error or an absent secret, otherwise merge
the attribute map under keys derived from the final path segment. -/
def addSecrets (secrets : List (String × String)) (r : SecretResult) :
    Outcome (List (String × String)) :=
  let keyName := pathSplitFile r.KeyPath
  match r.Err with
  | some e => .fatal ("Failed retrieving secret " ++ r.KeyPath ++ ": " ++ e)
  | none =>
    match r.Secret with
    | none => .fatal ("Vault listed a secret, but got not-found trying to read it at " ++ r.KeyPath)
    | some secret => mergeData keyName secret.Data secrets

/-- Modelled from the spec: the fetch engine (the `ParallelReader`, whose
file is absent from the sources) produces exactly one result per submitted
path, wrapping the store read of that path; within a definition's batch
the deterministic pipeline model consumes results in submission order
(the engine guarantees no ordering, and no claim depends on batch-internal
order). -/
def readResult (client : StoreClient) (p : String) : SecretResult :=
  { KeyPath := p, Secret := (client.read p).1, Err := (client.read p).2 }

/-- The drain loop (secrets.go lines 122-132): fatal on a result error,
else merge via `addSecrets`, propagating its outcome. -/
def drainResults (secrets : List (String × String)) :
    List SecretResult → Outcome (List (String × String))
  | [] => .ok secrets
  | r :: rest =>
    match r.Err with
    | some e => .fatal e
    | none =>
      match addSecrets secrets r with
      | .ok secrets' => drainResults secrets' rest
      | .fatal e => .fatal e
      | .panicked => .panicked

/-- State threaded through the environment loop of `SecretFetcher`:
the definitions appended so far and the paths submitted to the fetch
engine so far, in submission order. -/
structure FetchState where
  defs : List SecretDefinition
  fetched : List String
deriving DecidableEq

/-- Result of a region of `SecretFetcher`: normal continuation, process
termination by `log.Fatal`, or a panic; the carried state records the
definitions built and the fetch requests already issued at the moment the
run ends. -/
inductive StepResult where
  | ok (st : FetchState)
  | fatal (msg : String) (st : FetchState)
  | panicked (st : FetchState)
deriving DecidableEq

/-- One iteration of the environment loop of `SecretFetcher`
(secrets.go lines 66-135): build the definition, apply the no-output-sink
skip gate, expand plural definitions via `Walk` (fatal on failure, before
any fetch), submit every path, drain and merge the results, and append
the completed definition. -/
def fetchStep (config : Config) (client : StoreClient) (env : EnvList)
    (st : FetchState) (envKey : String) : StepResult :=
  match mkDef env envKey with
  | none => .ok st
  | some d =>
    if config.SecretPayloadPath == "" && !config.SecretEnv
        && d.OutputDestination == "" then .ok st
    else
      match (if d.plural then Walk client d.SecretApex else Except.ok d.paths) with
      | .error e => .fatal e st
      | .ok paths =>
        let st1 : FetchState := { st with fetched := st.fetched ++ paths }
        match drainResults [] (paths.map (readResult client)) with
        | .ok secrets =>
          .ok { st1 with defs := st1.defs ++ [{ d with secrets := secrets, paths := paths }] }
        | .fatal e => .fatal e st1
        | .panicked => .panicked st1

/-- The environment loop of `SecretFetcher` over the names of the
environment snapshot, stopping at the first fatal or panic. -/
def fetchLoop (config : Config) (client : StoreClient) (env : EnvList) :
    FetchState → List String → StepResult
  | st, [] => .ok st
  | st, k :: ks =>
    match fetchStep config client env st k with
    | .ok st' => fetchLoop config client env st' ks
    | r => r

/-- The discovery-and-fetch phase of `SecretFetcher` (secrets.go
lines 59-135) over a whole environment snapshot. -/
def fetchPhase (config : Config) (client : StoreClient) (env : EnvList) : StepResult :=
  fetchLoop config client env { defs := [], fetched := [] } (env.map (fun p => p.1))

/-! ## Output dispatch (secrets.go lines 137-196) -/

/-- JSON string escaping, limited to the quote and backslash characters
(the only escapes the claims exercise). -/
def jsonEscapeL : List Char → List Char
  | [] => []
  | c :: cs =>
    if c = '"' ∨ c = '\\' then '\\' :: c :: jsonEscapeL cs
    else c :: jsonEscapeL cs

/-- Strict byte-order comparison of strings, as Go `sort.Strings` uses to
order the keys `encoding/json` emits for a map. -/
def strLtL : List Char → List Char → Bool
  | [], [] => false
  | [], _ :: _ => true
  | _ :: _, [] => false
  | a :: as, b :: bs => if a == b then strLtL as bs else decide (a < b)

/-- Insertion into a key-sorted association list. -/
def insertSortedKV (x : String × String) : List (String × String) → List (String × String)
  | [] => [x]
  | y :: ys => if strLtL y.1.toList x.1.toList then y :: insertSortedKV x ys else x :: y :: ys

/-- Sort an association list by key. -/
def sortKV (m : List (String × String)) : List (String × String) :=
  m.foldr insertSortedKV []

/-- Go `json.Marshal` of a `map[string]string`: a JSON object with the
keys in sorted order. On this argument type marshalling cannot fail. -/
def jsonMarshal (m : List (String × String)) : String :=
  let entries := (sortKV m).map
    (fun p => "\"" ++ String.mk (jsonEscapeL p.1.toList) ++ "\":\""
      ++ String.mk (jsonEscapeL p.2.toList) ++ "\"")
  "\x7b" ++ String.intercalate "," entries ++ "\x7d"

/-- The world the dispatch phase writes to: file contents by path, the
process environment, and a chronological log of the file writes performed.
File writes are modelled as always succeeding (any write error in the code
is fatal, ending the run). -/
structure SysState where
  fs : List (String × String)
  procEnv : EnvList
  log : List (String × String)
deriving DecidableEq

/-- Go `ioutil.WriteFile`: replace the content at `path`. -/
def writeFileFS (st : SysState) (path content : String) : SysState :=
  { st with fs := insertKV st.fs path content, log := st.log ++ [(path, content)] }

/-- Function `writeJSONSecrets` (secrets.go lines 174-185): marshal the secrets map
and write it to `filepath`, replacing previous content. -/
def writeJSONSecrets (secrets : List (String × String)) (filepath : String)
    (st : SysState) : SysState :=
  writeFileFS st filepath (jsonMarshal secrets)

/-- Function `setEnvSecrets` (secrets.go lines 187-196): set each resolved pair in
the process environment. -/
def setEnvSecrets (secrets : List (String × String)) (st : SysState) : SysState :=
  { st with procEnv := secrets.foldl (fun e p => insertKV e p.1 p.2) st.procEnv }

/-- Function `writeSecretsToDestination` (secrets.go lines 156-172): a plural
definition writes its secrets as JSON; a singular one writes each value's
raw bytes to the destination (the model iterates the map in list order). -/
def writeSecretsToDestination (d : SecretDefinition) (st : SysState) : SysState :=
  if d.plural then writeJSONSecrets d.secrets d.OutputDestination st
  else d.secrets.foldl (fun s p => writeFileFS s d.OutputDestination p.2) st

/-- One iteration of the output loop (secrets.go lines 138-153):
environment export, then the per-definition destination, then the
consolidated payload path. -/
def dispatchDef (config : Config) (st : SysState) (d : SecretDefinition) : SysState :=
  let st1 := if config.SecretEnv then setEnvSecrets d.secrets st else st
  let st2 := if d.OutputDestination ≠ "" then writeSecretsToDestination d st1 else st1
  if config.SecretPayloadPath ≠ "" then
    writeJSONSecrets d.secrets config.SecretPayloadPath st2
  else st2

/-- The output loop of `SecretFetcher` over the collected definitions, in
discovery order. -/
def dispatchAll (config : Config) (st : SysState) (defs : List SecretDefinition) : SysState :=
  defs.foldl (dispatchDef config) st

/-! ## Fetch engine concurrency model -/

/-- Modelled from the spec: the state of the `ParallelReader` fetch engine
(its file is absent from the sources). Submitted paths wait in the request
channel (`queued`), are dequeued by one of the N workers (`inFlight`), and
each dequeued request is published as exactly one result (`done`). -/
structure EngineState where
  queued : Multiset String
  inFlight : Multiset String
  done : Multiset String

/-- Engine state after a sequence of submissions, before any worker
activity. -/
def engineInit (subs : Multiset String) : EngineState :=
  { queued := subs, inFlight := 0, done := 0 }

/-- Modelled from the spec: one scheduler step of the engine with
concurrency `N` — a free worker dequeues a submitted path, or a busy
worker completes its read and publishes the result. -/
inductive EngineStep (N : Nat) : EngineState → EngineState → Prop where
  | take (p : String) (s : EngineState) (hq : p ∈ s.queued)
      (hcap : Multiset.card s.inFlight < N) :
      EngineStep N s
        { queued := s.queued.erase p, inFlight := p ::ₘ s.inFlight, done := s.done }
  | finish (p : String) (s : EngineState) (hf : p ∈ s.inFlight) :
      EngineStep N s
        { queued := s.queued, inFlight := s.inFlight.erase p, done := p ::ₘ s.done }

/-- The conserved quantity of the engine: queued, in-flight and completed
paths together are exactly the submitted multiset. -/
def engineInv (subs : Multiset String) (s : EngineState) : Prop :=
  s.queued + s.inFlight + s.done = subs

/-! ## Concrete instances used by witnesses and counterexamples -/

/-- A store client that answers nothing; used where the client is never
consulted. -/
def nullClient : StoreClient :=
  { read := fun _ => (none, none), list := fun _ => (none, none) }

/-- A client whose listing contains an empty keys sequence. -/
def emptyKeysClient : StoreClient :=
  { read := fun _ => (none, none),
    list := fun _ => (some { Data := [("keys", GoValue.arr [])] }, none) }

/-- A client whose list call errors. -/
def errListClient : StoreClient :=
  { read := fun _ => (none, none),
    list := fun _ => (none, some "connection refused") }

/-- A client listing children A and B under every apex. -/
def abListClient : StoreClient :=
  { read := fun _ => (none, none),
    list := fun _ =>
      (some { Data := [("keys", GoValue.arr [GoValue.str "A", GoValue.str "B"])] }, none) }

/-- An environment setting all three casing variants of a destination. -/
def envDest : EnvList :=
  [("DAYTONA_SECRET_DESTINATION_Foo", "/dest/as-given"),
   ("DAYTONA_SECRET_DESTINATION_foo", "/dest/lower"),
   ("DAYTONA_SECRET_DESTINATION_FOO", "/dest/upper")]

/-- An environment whose only secret variable has an empty value. -/
def envEmptyVal : EnvList := [("VAULT_SECRET_A", "")]

/-- An environment declaring one plural secret group. -/
def envPluralDB : EnvList := [("VAULT_SECRETS_DB", "secret/app")]

/-- An environment declaring one singular secret. -/
def envSingularApi : EnvList := [("VAULT_SECRET_API", "secret/app/api")]

/-- Configuration with only the environment-export sink enabled. -/
def cfgEnvOnly : Config := { Workers := 1, SecretPayloadPath := "", SecretEnv := true }

/-- Configuration with no global sink enabled. -/
def cfgNoSinks : Config := { Workers := 2, SecretPayloadPath := "", SecretEnv := false }

/-- Configuration with a consolidated payload path. -/
def cfgPayload : Config :=
  { Workers := 1, SecretPayloadPath := "/out/all.json", SecretEnv := false }

/-- Two resolved definitions, as collected before output dispatch. -/
def defsPayloadEx : List SecretDefinition :=
  [{ EnvKey := "VAULT_SECRET_A", SecretID := "A", SecretApex := "secret/a",
     OutputDestination := "", secrets := [("A", "v1")], plural := false,
     paths := ["secret/a"] },
   { EnvKey := "VAULT_SECRET_B", SecretID := "B", SecretApex := "secret/b",
     OutputDestination := "", secrets := [("B", "v2")], plural := false,
     paths := ["secret/b"] }]

/-- The empty world before dispatch. -/
def sysStart : SysState := { fs := [], procEnv := [], log := [] }

/-- Engine state after the single worker dequeues the one submission. -/
def engineMidEx : EngineState :=
  { queued := ({"a"} : Multiset String).erase "a", inFlight := "a" ::ₘ 0, done := 0 }

/-- Engine state after the worker publishes its result. -/
def engineFinalEx : EngineState :=
  { queued := ({"a"} : Multiset String).erase "a",
    inFlight := ("a" ::ₘ (0 : Multiset String)).erase "a",
    done := "a" ::ₘ (0 : Multiset String) }

-- sanity checks on the path helpers
example : pathClean "/a/b/../c" = "/a/c" := by decide
example : pathClean "" = "." := by decide
example : pathJoin "secret/app" "A" = "secret/app/A" := by decide
example : pathJoin "secret/app/" "A" = "secret/app/A" := by decide
example : pathSplitFile "secret/app/DB" = "DB" := by decide
example : pathSplitFile "DB" = "DB" := by decide
example : lookupKV (insertKV [("a", "1")] "a" "2") "a" = some "2" := by decide

/-! ## Helper lemmas: association lists -/

theorem lookupKV_cons (k0 v0 : String) (m : List (String × String)) (q : String) :
    lookupKV ((k0, v0) :: m) q = if k0 == q then some v0 else lookupKV m q := by
  simp only [lookupKV, List.find?]
  cases h : (k0 == q) <;> simp

theorem lookupKV_insertKV (m : List (String × String)) (k v q : String) :
    lookupKV (insertKV m k v) q = if k == q then some v else lookupKV m q := by
  induction m with
  | nil =>
    show lookupKV [(k, v)] q = if k == q then some v else lookupKV [] q
    rw [lookupKV_cons]
  | cons kv0 rest ih =>
    obtain ⟨k0, v0⟩ := kv0
    by_cases h : k0 = k
    · subst h
      have hb : (k0 == k0) = true := by simp
      simp only [insertKV, hb, if_true]
      rw [lookupKV_cons, lookupKV_cons]
      by_cases hq : k0 = q <;> simp [hq]
    · have hb : (k0 == k) = false := by simp [h]
      simp only [insertKV, hb, Bool.false_eq_true, if_false]
      rw [lookupKV_cons, lookupKV_cons, ih]
      by_cases hq : k0 = q
      · subst hq
        have hkq : (k == k0) = false := by
          simp only [beq_eq_false_iff_ne, ne_eq]
          exact fun hh => h hh.symm
        simp [hkq]
      · simp [hq]

theorem lookupKV_insertKV_self (m : List (String × String)) (k v : String) :
    lookupKV (insertKV m k v) k = some v := by
  rw [lookupKV_insertKV]; simp

/-! ## Helper lemmas: the attribute merge of addSecrets -/

theorem mergeData_map_str (keyName : String) (attrs : List (String × String))
    (m : List (String × String)) :
    mergeData keyName (attrs.map (fun kv => (kv.1, GoValue.str kv.2))) m
      = Outcome.ok
          (attrs.foldl (fun acc kv => insertKV acc (storedKeyName keyName kv.1) kv.2) m) := by
  induction attrs generalizing m with
  | nil => rfl
  | cons kv rest ih =>
    obtain ⟨k, s⟩ := kv
    simp only [List.map, mergeData, List.foldl, storedKeyName]
    by_cases h : (k == defaultKeyName) = true
    · simp only [h, if_true]
      exact ih _
    · simp only [Bool.not_eq_true] at h
      simp only [h, Bool.false_eq_true, if_false]
      exact ih _

theorem lookupKV_foldl_insert (keyName : String) (attrs : List (String × String))
    (m : List (String × String)) (q : String) :
    lookupKV (attrs.foldl (fun acc kv => insertKV acc (storedKeyName keyName kv.1) kv.2) m) q
      = match attrs.reverse.find? (fun kv => storedKeyName keyName kv.1 == q) with
        | some kv => some kv.2
        | none => lookupKV m q := by
  induction attrs generalizing m with
  | nil => rfl
  | cons kv rest ih =>
    obtain ⟨k, s⟩ := kv
    simp only [List.foldl, List.reverse_cons]
    rw [ih, List.find?_append]
    cases hfind : rest.reverse.find? (fun kv => storedKeyName keyName kv.1 == q) with
    | some kv' => simp [Option.or]
    | none =>
      simp only [Option.or]
      rw [lookupKV_insertKV]
      by_cases hp : storedKeyName keyName k = q
      · simp [List.find?, hp]
      · have hb : (storedKeyName keyName k == q) = false := by simp [hp]
        simp [List.find?, hb]

/-! ## Helper lemmas: walkKeys -/

theorem walkKeys_map_str (apex : String) (names : List String) :
    walkKeys apex (names.map GoValue.str) = Except.ok (names.map (fun k => pathJoin apex k)) := by
  induction names with
  | nil => rfl
  | cons n rest ih => simp [walkKeys, List.map, ih, Except.map]

theorem walkKeys_length (apex : String) (ks : List GoValue) (ps : List String)
    (h : walkKeys apex ks = Except.ok ps) : ps.length = ks.length := by
  induction ks generalizing ps with
  | nil =>
    simp only [walkKeys] at h
    cases h
    rfl
  | cons v rest ih =>
    cases v with
    | str k =>
      simp only [walkKeys] at h
      cases hr : walkKeys apex rest with
      | ok ps' =>
        rw [hr] at h
        simp only [Except.map] at h
        cases h
        simp [ih ps' hr]
      | error e =>
        rw [hr] at h
        simp [Except.map] at h
    | arr xs => simp [walkKeys] at h
    | othr => simp [walkKeys] at h

theorem walkKeys_err_of_nonstr (apex : String) (ks : List GoValue)
    (h : ∃ v ∈ ks, ∀ s, v ≠ GoValue.str s) : ∃ msg, walkKeys apex ks = Except.error msg := by
  induction ks with
  | nil =>
    obtain ⟨v, hv, _⟩ := h
    cases hv
  | cons v rest ih =>
    obtain ⟨w, hw, hwns⟩ := h
    cases v with
    | str k =>
      have hwrest : w ∈ rest := by
        cases hw with
        | head => exact absurd rfl (hwns k)
        | tail _ hmem => exact hmem
      obtain ⟨msg, hmsg⟩ := ih ⟨w, hwrest, hwns⟩
      refine ⟨msg, ?_⟩
      simp [walkKeys, hmsg, Except.map]
    | arr xs => exact ⟨"non-string secret name", rfl⟩
    | othr => exact ⟨"non-string secret name", rfl⟩

/-! ## Helper lemmas: string prefixes -/

theorem hasPfxL_self_append (p l : List Char) : hasPfxL p (p ++ l) = true := by
  induction p with
  | nil => rfl
  | cons c cs ih => simp [hasPfxL, ih]

theorem hasPfx_append (pfx sfx : String) : hasPfx (pfx ++ sfx) pfx = true := by
  show hasPfxL pfx.toList (pfx ++ sfx).toList = true
  rw [show (pfx ++ sfx).toList = pfx.toList ++ sfx.toList from String.data_append pfx sfx]
  exact hasPfxL_self_append _ _

theorem trimPfx_append (pfx sfx : String) : trimPfx (pfx ++ sfx) pfx = sfx := by
  unfold trimPfx
  rw [hasPfx_append]
  simp only [if_true]
  rw [show (pfx ++ sfx).toList = pfx.toList ++ sfx.toList from String.data_append pfx sfx]
  rw [List.drop_left]
  rfl

theorem exists_of_hasPfxL (p l : List Char) (h : hasPfxL p l = true) : ∃ l', l = p ++ l' := by
  induction p generalizing l with
  | nil => exact ⟨l, rfl⟩
  | cons c cs ih =>
    cases l with
    | nil => simp [hasPfxL] at h
    | cons b bs =>
      simp only [hasPfxL, Bool.and_eq_true, beq_iff_eq] at h
      obtain ⟨hcb, h2⟩ := h
      subst hcb
      obtain ⟨l', hl⟩ := ih bs h2
      exact ⟨l', by rw [hl]; rfl⟩

theorem exists_of_hasPfx (s pfx : String) (h : hasPfx s pfx = true) :
    ∃ sfx, s = pfx ++ sfx := by
  obtain ⟨l', hl⟩ := exists_of_hasPfxL pfx.toList s.toList h
  refine ⟨String.mk l', ?_⟩
  have hdata : s.data = (pfx ++ String.mk l').data := by
    rw [String.data_append]
    exact hl
  cases s
  cases hdata
  rfl

theorem hasPfxL_append_of_false (p q : List Char) (h : hasPfxL p q = false)
    (hlen : p.length ≤ q.length) (l : List Char) : hasPfxL p (q ++ l) = false := by
  induction p generalizing q with
  | nil => simp [hasPfxL] at h
  | cons c cs ih =>
    cases q with
    | nil => simp at hlen
    | cons b bs =>
      simp only [List.cons_append, hasPfxL] at h ⊢
      cases hcb : (c == b) with
      | false => simp
      | true =>
        rw [hcb] at h
        simp only [Bool.true_and] at h ⊢
        exact ih bs h (Nat.le_of_succ_le_succ hlen)

theorem plural_name_not_singular (sfx : String) :
    hasPfx (secretsStoragePathPfx ++ sfx) secretStoragePathPfx = false := by
  show hasPfxL secretStoragePathPfx.toList (secretsStoragePathPfx ++ sfx).toList = false
  rw [show (secretsStoragePathPfx ++ sfx).toList
        = secretsStoragePathPfx.toList ++ sfx.toList from String.data_append _ _]
  exact hasPfxL_append_of_false _ _ (by decide) (by decide) _

/-! ## Helper lemmas: the fetch engine -/

theorem engineStep_preserves_inv (N : Nat) (subs : Multiset String) (s t : EngineState)
    (hstep : EngineStep N s t) (hinv : engineInv subs s) : engineInv subs t := by
  unfold engineInv at hinv ⊢
  cases hstep with
  | take p s hq hcap =>
    show s.queued.erase p + (p ::ₘ s.inFlight) + s.done = subs
    rw [Multiset.add_cons, Multiset.cons_add]
    rw [← Multiset.cons_erase hq] at hinv
    rw [Multiset.cons_add, Multiset.cons_add] at hinv
    exact hinv
  | finish p s hf =>
    show s.queued + s.inFlight.erase p + (p ::ₘ s.done) = subs
    rw [Multiset.add_cons]
    rw [← Multiset.cons_erase hf] at hinv
    rw [Multiset.add_cons, Multiset.cons_add] at hinv
    exact hinv

theorem engineReach_inv (N : Nat) (subs : Multiset String) (s : EngineState)
    (h : Relation.ReflTransGen (EngineStep N) (engineInit subs) s) : engineInv subs s := by
  induction h with
  | refl => show subs + 0 + 0 = subs; simp
  | tail hab hbc ih => exact engineStep_preserves_inv N subs _ _ hbc ih

/-! ## Helper lemmas: mergeData outcomes -/

theorem mergeData_panicked_of_nonstr (keyName : String) (attrs : List (String × GoValue))
    (m : List (String × String))
    (h : ∃ kv ∈ attrs, ∀ s, kv.2 ≠ GoValue.str s) :
    mergeData keyName attrs m = Outcome.panicked := by
  induction attrs generalizing m with
  | nil =>
    obtain ⟨kv, hkv, _⟩ := h
    cases hkv
  | cons kv0 rest ih =>
    obtain ⟨kv, hkv, hns⟩ := h
    obtain ⟨k, v⟩ := kv0
    cases v with
    | str s =>
      have hmem : kv ∈ rest := by
        cases hkv with
        | head => exact absurd rfl (hns s)
        | tail _ hmem => exact hmem
      by_cases hk : k = defaultKeyName
      · simp only [mergeData]
        rw [if_pos (by simp [hk])]
        exact ih _ ⟨kv, hmem, hns⟩
      · simp only [mergeData]
        rw [if_neg (by simp [hk])]
        exact ih _ ⟨kv, hmem, hns⟩
    | arr xs => rfl
    | othr => rfl

theorem mergeData_ok_of_str (keyName : String) (attrs : List (String × GoValue))
    (m : List (String × String))
    (h : ∀ kv ∈ attrs, ∃ s, kv.2 = GoValue.str s) :
    ∃ m', mergeData keyName attrs m = Outcome.ok m' := by
  induction attrs generalizing m with
  | nil => exact ⟨m, rfl⟩
  | cons kv0 rest ih =>
    obtain ⟨k, v⟩ := kv0
    obtain ⟨s, hs⟩ := h (k, v) (List.mem_cons_self _ _)
    simp only at hs
    subst hs
    have hrest : ∀ kv ∈ rest, ∃ s, kv.2 = GoValue.str s :=
      fun kv hkv => h kv (List.mem_cons_of_mem _ hkv)
    by_cases hk : k = defaultKeyName
    · simp only [mergeData]
      rw [if_pos (by simp [hk])]
      exact ih _ hrest
    · simp only [mergeData]
      rw [if_neg (by simp [hk])]
      exact ih _ hrest

/-! ## Claim theorems -/

/-- C1: for every fetch result merged into a definition, the friendly key
name is the final path segment of the result's path; an attribute named by
the distinguished default key name is stored under the friendly key name
itself, any other attribute `k` under the underscore-joined expansion; and
on key collision within one definition the last write wins — a key set by
this result shadows any earlier binding, and within the result the last
attribute writing a key decides its value. -/
theorem C1_addSecrets_merge (p : String) (attrs : List (String × String))
    (m : List (String × String)) :
    addSecrets m ⟨p, some ⟨attrs.map (fun kv => (kv.1, GoValue.str kv.2))⟩, none⟩
      = Outcome.ok (attrs.foldl
          (fun acc kv => insertKV acc (storedKeyName (pathSplitFile p) kv.1) kv.2) m)
  ∧ ∀ q,
      lookupKV (attrs.foldl
          (fun acc kv => insertKV acc (storedKeyName (pathSplitFile p) kv.1) kv.2) m) q
        = match attrs.reverse.find?
              (fun kv => storedKeyName (pathSplitFile p) kv.1 == q) with
          | some kv => some kv.2
          | none => lookupKV m q := by
  constructor
  · exact mergeData_map_str (pathSplitFile p) attrs m
  · intro q
    exact lookupKV_foldl_insert (pathSplitFile p) attrs m q

/-- C5: the output destination is the first non-empty value among the
destination-prefixed variable for the id as given, then all-lowercase,
then all-uppercase, in that order; the as-given variant wins when several
variants are set. -/
theorem C5_destination_lookup_order (env : EnvList) (secretID : String) :
    (getenv env (secretDestinationPfx ++ secretID) ≠ "" →
      resolveDestination env secretID = getenv env (secretDestinationPfx ++ secretID))
  ∧ (getenv env (secretDestinationPfx ++ secretID) = "" →
      getenv env (secretDestinationPfx ++ secretID.toLower) ≠ "" →
      resolveDestination env secretID
        = getenv env (secretDestinationPfx ++ secretID.toLower))
  ∧ (getenv env (secretDestinationPfx ++ secretID) = "" →
      getenv env (secretDestinationPfx ++ secretID.toLower) = "" →
      resolveDestination env secretID
        = getenv env (secretDestinationPfx ++ secretID.toUpper)) := by
  refine ⟨fun h1 => ?_, fun h1 h2 => ?_, fun h1 h2 => ?_⟩
  · simp [resolveDestination, h1]
  · simp [resolveDestination, h1, h2]
  · by_cases h3 : getenv env (secretDestinationPfx ++ secretID.toUpper) = ""
    · simp [resolveDestination, h1, h2, h3]
    · simp [resolveDestination, h1, h2, h3]

/-- C5 witness: with all three casing variants set, the as-given variant
wins. -/
theorem C5_destination_lookup_order_witness :
    getenv envDest (secretDestinationPfx ++ "Foo") ≠ "" ∧
    resolveDestination envDest "Foo" = getenv envDest (secretDestinationPfx ++ "Foo") :=
  ⟨by decide, (C5_destination_lookup_order envDest "Foo").1 (by decide)⟩

/-- C6: a drained result carrying an error terminates the run fatally; an
error-free result whose secret is absent terminates the run fatally (the
listed-but-not-found inconsistency); only a result with a present,
error-free secret is merged into the definition's secrets mapping, after
which draining continues. -/
theorem C6_drain_fatal_on_error_or_absent (secrets : List (String × String))
    (r : SecretResult) (rest : List SecretResult) :
    (∀ e, r.Err = some e → drainResults secrets (r :: rest) = Outcome.fatal e)
  ∧ (r.Err = none → r.Secret = none →
      ∃ msg, drainResults secrets (r :: rest) = Outcome.fatal msg)
  ∧ (∀ attrs : List (String × String), r.Err = none →
      r.Secret = some ⟨attrs.map (fun kv => (kv.1, GoValue.str kv.2))⟩ →
      drainResults secrets (r :: rest)
        = drainResults (attrs.foldl
            (fun acc kv => insertKV acc (storedKeyName (pathSplitFile r.KeyPath) kv.1) kv.2)
            secrets) rest) := by
  obtain ⟨kp, sec, err⟩ := r
  refine ⟨fun e he => ?_, fun he hs => ?_, fun attrs he hs => ?_⟩
  · simp only at he
    subst he
    rfl
  · simp only at he hs
    subst he
    subst hs
    exact ⟨"Vault listed a secret, but got not-found trying to read it at " ++ kp, rfl⟩
  · simp only at he hs
    subst he
    subst hs
    show (match addSecrets secrets ⟨kp, _, none⟩ with
          | Outcome.ok secrets' => drainResults secrets' rest
          | Outcome.fatal e => Outcome.fatal e
          | Outcome.panicked => Outcome.panicked) = _
    rw [show addSecrets secrets ⟨kp, some ⟨attrs.map (fun kv => (kv.1, GoValue.str kv.2))⟩, none⟩
          = Outcome.ok (attrs.foldl
              (fun acc kv => insertKV acc (storedKeyName (pathSplitFile kp) kv.1) kv.2) secrets)
        from mergeData_map_str (pathSplitFile kp) attrs secrets]

/-- C6 witness: a result carrying an error makes the drain loop fatal. -/
theorem C6_drain_fatal_witness :
    drainResults [] [⟨"secret/app/api", none, some "permission denied"⟩]
      = Outcome.fatal "permission denied" :=
  (C6_drain_fatal_on_error_or_absent [] ⟨"secret/app/api", none, some "permission denied"⟩ []).1
    "permission denied" rfl

/-- C10: merging a fetch result whose attribute map contains a non-string
value panics via the unchecked type assertion — it neither returns an
error nor terminates with a logged fatal message — while merging an
attribute map whose values are all strings completes normally. -/
theorem C10_nonstring_attribute_panics (p : String) (attrs : List (String × GoValue))
    (m : List (String × String)) :
    ((∃ kv ∈ attrs, ∀ s, kv.2 ≠ GoValue.str s) →
      addSecrets m ⟨p, some ⟨attrs⟩, none⟩ = Outcome.panicked)
  ∧ ((∀ kv ∈ attrs, ∃ s, kv.2 = GoValue.str s) →
      ∃ m', addSecrets m ⟨p, some ⟨attrs⟩, none⟩ = Outcome.ok m') := by
  constructor
  · intro h
    exact mergeData_panicked_of_nonstr (pathSplitFile p) attrs m h
  · intro h
    exact mergeData_ok_of_str (pathSplitFile p) attrs m h

/-- C10 witness: a numeric-like attribute value panics the merge; the
all-string map merges normally. -/
theorem C10_nonstring_attribute_panics_witness :
    addSecrets [] ⟨"secret/app/db", some ⟨[("port", GoValue.othr)]⟩, none⟩
      = Outcome.panicked ∧
    ∃ m', addSecrets [] ⟨"secret/app/db", some ⟨[("user", GoValue.str "u")]⟩, none⟩
      = Outcome.ok m' :=
  ⟨(C10_nonstring_attribute_panics "secret/app/db" [("port", GoValue.othr)] []).1
      ⟨("port", GoValue.othr), List.mem_cons_self _ _, fun s h => by cases h⟩,
   (C10_nonstring_attribute_panics "secret/app/db" [("user", GoValue.str "u")] []).2
      (fun kv hkv => by
        cases hkv with
        | head => exact ⟨"u", rfl⟩
        | tail _ h => cases h)⟩

/-- C4: when the apex listing succeeds with a non-empty data map, Walk
fails if the payload holds no well-typed keys sequence or any listed entry
is not a string; otherwise paths is exactly one path per listed child
name, each child joined onto the apex, with no duplicates beyond those
listed and no omissions. -/
theorem C4_walk_expansion (client : StoreClient) (apex : String)
    (data : List (String × GoValue))
    (hl : client.list apex = (some ⟨data⟩, none)) (hlen : data.length ≠ 0) :
    (data.find? (fun kv => kv.1 == "keys") = none →
      ∃ msg, Walk client apex = Except.error msg)
  ∧ (∀ e, data.find? (fun kv => kv.1 == "keys") = some e →
      (∀ ks, e.2 ≠ GoValue.arr ks) → ∃ msg, Walk client apex = Except.error msg)
  ∧ (∀ e ks, data.find? (fun kv => kv.1 == "keys") = some e → e.2 = GoValue.arr ks →
      ((∃ v ∈ ks, ∀ s, v ≠ GoValue.str s) → ∃ msg, Walk client apex = Except.error msg)
    ∧ (∀ names : List String, ks = names.map GoValue.str →
        Walk client apex = Except.ok (names.map (fun k => pathJoin apex k)))) := by
  have hwalk : Walk client apex
      = match data.find? (fun kv => kv.1 == "keys") with
        | some (_, GoValue.arr ks) => walkKeys apex ks
        | _ => Except.error "unexpected list.Data format" := by
    unfold Walk
    rw [hl]
    show (if (data.length == 0) = true then Except.error ("no secrets found under: " ++ apex)
          else match data.find? (fun kv => kv.1 == "keys") with
            | some (_, GoValue.arr ks) => walkKeys apex ks
            | _ => Except.error "unexpected list.Data format") = _
    rw [if_neg (by simp [hlen])]
  refine ⟨fun hfind => ?_, fun e hfind hne => ?_, fun e ks hfind harr => ⟨fun hns => ?_, fun names hmap => ?_⟩⟩
  · rw [hwalk, hfind]
    exact ⟨"unexpected list.Data format", rfl⟩
  · obtain ⟨k0, v0⟩ := e
    cases v0 with
    | str s =>
      rw [hwalk, hfind]
      exact ⟨"unexpected list.Data format", rfl⟩
    | arr ks => exact absurd rfl (hne ks)
    | othr =>
      rw [hwalk, hfind]
      exact ⟨"unexpected list.Data format", rfl⟩
  · obtain ⟨k0, v0⟩ := e
    simp only at harr
    subst harr
    rw [hwalk, hfind]
    exact walkKeys_err_of_nonstr apex ks hns
  · obtain ⟨k0, v0⟩ := e
    simp only at harr
    subst harr
    subst hmap
    rw [hwalk, hfind]
    exact walkKeys_map_str apex names

/-- C4 witness: a listing of children A and B under apex p expands to
exactly the two joined paths. -/
theorem C4_walk_expansion_witness : Walk abListClient "p" = Except.ok ["p/A", "p/B"] := by
  have h := ((C4_walk_expansion abListClient "p"
      [("keys", GoValue.arr [GoValue.str "A", GoValue.str "B"])] rfl (by decide)).2.2
      ("keys", GoValue.arr [GoValue.str "A", GoValue.str "B"])
      [GoValue.str "A", GoValue.str "B"] rfl rfl).2 ["A", "B"] rfl
  rw [h]
  rfl

/-- C2 counterexample: the variable VAULT_SECRET_A matches the singular
prefix, yet with an empty value the loop skips it and yields no
definition, contradicting the claim that every matching variable yields
exactly one definition. -/
theorem C2_empty_value_counterexample :
    hasPfx "VAULT_SECRET_A" secretStoragePathPfx = true ∧
    mkDef envEmptyVal "VAULT_SECRET_A" = none ∧
    fetchPhase cfgEnvOnly nullClient envEmptyVal = StepResult.ok ⟨[], []⟩ :=
  ⟨by decide, rfl, rfl⟩

/-- C2 (amended): every environment variable with a non-empty value whose
name matches the singular prefix yields exactly one definition with
secretID the name minus the prefix, apex the value, paths the one-element
list holding the apex and plural false; one matching the plural prefix
yields exactly one definition with plural true and empty paths; a name
matching neither prefix yields none. -/
theorem C2_amended_env_classification (env : EnvList) (envKey : String)
    (hval : getenv env envKey ≠ "") :
    (∀ sfx, envKey = secretStoragePathPfx ++ sfx →
      mkDef env envKey = some ⟨envKey, sfx, getenv env envKey,
        resolveDestination env sfx, [], false, [getenv env envKey]⟩)
  ∧ (∀ sfx, envKey = secretsStoragePathPfx ++ sfx →
      mkDef env envKey = some ⟨envKey, sfx, getenv env envKey,
        resolveDestination env sfx, [], true, []⟩)
  ∧ ((∀ sfx, envKey ≠ secretStoragePathPfx ++ sfx) →
     (∀ sfx, envKey ≠ secretsStoragePathPfx ++ sfx) →
      mkDef env envKey = none) := by
  have hvb : (getenv env envKey == "") = false := by simp [hval]
  refine ⟨fun sfx h => ?_, fun sfx h => ?_, fun h1 h2 => ?_⟩
  · subst h
    simp only [mkDef, classify, hvb, Bool.false_eq_true, if_false,
      hasPfx_append, if_true, trimPfx_append]
  · subst h
    simp only [mkDef, classify, hvb, Bool.false_eq_true, if_false,
      plural_name_not_singular, hasPfx_append, if_true, trimPfx_append]
  · have hs1 : hasPfx envKey secretStoragePathPfx = false := by
      cases hcase : hasPfx envKey secretStoragePathPfx with
      | false => rfl
      | true =>
        obtain ⟨sfx, rfl⟩ := exists_of_hasPfx _ _ hcase
        exact absurd rfl (h1 sfx)
    have hs2 : hasPfx envKey secretsStoragePathPfx = false := by
      cases hcase : hasPfx envKey secretsStoragePathPfx with
      | false => rfl
      | true =>
        obtain ⟨sfx, rfl⟩ := exists_of_hasPfx _ _ hcase
        exact absurd rfl (h2 sfx)
    simp only [mkDef, classify, hs1, hs2, Bool.false_eq_true, if_false]
    split <;> rfl

/-- C2 witness: a singular variable with a non-empty value yields exactly
the expected definition. -/
theorem C2_amended_env_classification_witness :
    mkDef envSingularApi "VAULT_SECRET_API"
      = some ⟨"VAULT_SECRET_API", "API", "secret/app/api", "", [], false,
          ["secret/app/api"]⟩ := by
  have h := (C2_amended_env_classification envSingularApi "VAULT_SECRET_API"
      (by decide)).1 "API" (by decide)
  rw [h]
  rfl

/-- C3 counterexample: a listing whose keys sequence is empty makes Walk
succeed with zero paths, so the plural definition proceeds past expansion
into the fetch stage with an empty paths list (no fetch, no failure),
contradicting the claim that a definition that proceeds to fetching has at
least one path. -/
theorem C3_empty_keys_counterexample :
    Walk emptyKeysClient "secret/app" = Except.ok [] ∧
    fetchStep cfgEnvOnly emptyKeysClient envPluralDB ⟨[], []⟩ "VAULT_SECRETS_DB"
      = StepResult.ok ⟨[⟨"VAULT_SECRETS_DB", "DB", "secret/app", "", [], true, []⟩], []⟩ :=
  ⟨rfl, rfl⟩

/-- C3 (amended): processing a plural definition terminates the run
fatally, with no fetch issued for that definition, whenever the store's
list call errors or returns an empty result (no listing, or a listing
with an empty data map); and a successful expansion yields exactly one
path per listed key, so a plural definition whose keys sequence is
nonempty reaches the fetch stage with a nonempty paths list — but an
empty keys sequence yields an empty paths list without failing. -/
theorem C3_amended_plural_expansion_failure (config : Config) (client : StoreClient)
    (env : EnvList) (st : FetchState) (envKey : String) (d : SecretDefinition)
    (hd : mkDef env envKey = some d) (hpl : d.plural = true)
    (hgate : (config.SecretPayloadPath == "" && !config.SecretEnv
        && d.OutputDestination == "") = false) :
    (((∃ s e, client.list d.SecretApex = (s, some e)) ∨
        client.list d.SecretApex = (none, none) ∨
        (∃ l, client.list d.SecretApex = (some l, none) ∧ l.Data = [])) →
      ∃ msg, fetchStep config client env st envKey = StepResult.fatal msg st)
  ∧ (∀ l e ks, client.list d.SecretApex = (some l, none) →
      l.Data.find? (fun kv => kv.1 == "keys") = some e → e.2 = GoValue.arr ks →
      ks ≠ [] → ∀ ps, Walk client d.SecretApex = Except.ok ps → ps ≠ []) := by
  constructor
  · intro hfail
    have herr : ∃ msg, Walk client d.SecretApex = Except.error msg := by
      rcases hfail with ⟨s, e, hse⟩ | hnn | ⟨l, hl, hldata⟩
      · refine ⟨"there was a problem listing " ++ d.SecretApex ++ ": " ++ e, ?_⟩
        cases s with
        | none => unfold Walk; rw [hse]
        | some l0 => unfold Walk; rw [hse]
      · exact ⟨"no secrets found under: " ++ d.SecretApex, by
          unfold Walk; rw [hnn]⟩
      · refine ⟨"no secrets found under: " ++ d.SecretApex, ?_⟩
        unfold Walk
        rw [hl]
        show (if (l.Data.length == 0) = true then _ else _) = _
        rw [if_pos (by simp [hldata])]
    obtain ⟨msg, hmsg⟩ := herr
    refine ⟨msg, ?_⟩
    unfold fetchStep
    rw [hd]
    show (if (config.SecretPayloadPath == "" && !config.SecretEnv
          && d.OutputDestination == "") = true then StepResult.ok st
        else match (if d.plural then Walk client d.SecretApex else Except.ok d.paths) with
          | Except.error e => StepResult.fatal e st
          | Except.ok paths => _) = _
    rw [if_neg (by simp [hgate]), hpl, if_pos rfl, hmsg]
  · intro l e ks hl hfind harr hks ps hps
    have hlen : l.Data.length ≠ 0 := by
      intro hz
      rw [List.length_eq_zero] at hz
      rw [hz] at hfind
      cases hfind
    have hwalk : Walk client d.SecretApex
        = match l.Data.find? (fun kv => kv.1 == "keys") with
          | some (_, GoValue.arr ks) => walkKeys d.SecretApex ks
          | _ => Except.error "unexpected list.Data format" := by
      unfold Walk
      rw [hl]
      show (if (l.Data.length == 0) = true
            then Except.error ("no secrets found under: " ++ d.SecretApex)
            else match l.Data.find? (fun kv => kv.1 == "keys") with
              | some (_, GoValue.arr ks) => walkKeys d.SecretApex ks
              | _ => Except.error "unexpected list.Data format") = _
      rw [if_neg (by simp [hlen])]
    obtain ⟨k0, v0⟩ := e
    simp only at harr
    subst harr
    rw [hwalk, hfind] at hps
    have hlenk := walkKeys_length d.SecretApex ks ps hps
    intro hnil
    rw [hnil] at hlenk
    exact hks (List.length_eq_zero.mp hlenk.symm)

/-- C3 witness: a list error on a plural definition fatals the step with
no fetch issued. -/
theorem C3_amended_plural_expansion_failure_witness :
    ∃ msg, fetchStep cfgEnvOnly errListClient envPluralDB ⟨[], []⟩ "VAULT_SECRETS_DB"
      = StepResult.fatal msg ⟨[], []⟩ :=
  (C3_amended_plural_expansion_failure cfgEnvOnly errListClient envPluralDB ⟨[], []⟩
      "VAULT_SECRETS_DB" ⟨"VAULT_SECRETS_DB", "DB", "secret/app", "", [], true, []⟩
      rfl rfl (by decide)).1
    (Or.inl ⟨none, "connection refused", rfl⟩)

/-- C8: with neither the consolidated payload path nor the environment
export enabled, a definition that resolves no destination is skipped
without failing: the step returns the state unchanged (nothing fetched,
nothing appended, excluded from dispatch), and the loop over the remaining
environment variables proceeds exactly as if the variable were absent. -/
theorem C8_no_sink_definition_skipped (config : Config) (client : StoreClient)
    (env : EnvList) (st : FetchState) (envKey : String) (d : SecretDefinition)
    (ks : List String)
    (hpay : config.SecretPayloadPath = "") (henv : config.SecretEnv = false)
    (hd : mkDef env envKey = some d) (hdest : d.OutputDestination = "") :
    fetchStep config client env st envKey = StepResult.ok st
  ∧ fetchLoop config client env st (envKey :: ks) = fetchLoop config client env st ks := by
  have hstep : fetchStep config client env st envKey = StepResult.ok st := by
    unfold fetchStep
    rw [hd]
    show (if (config.SecretPayloadPath == "" && !config.SecretEnv
          && d.OutputDestination == "") = true then StepResult.ok st
        else match (if d.plural then Walk client d.SecretApex else Except.ok d.paths) with
          | Except.error e => StepResult.fatal e st
          | Except.ok paths => _) = _
    rw [if_pos (by rw [hpay, henv, hdest]; rfl)]
  refine ⟨hstep, ?_⟩
  show (match fetchStep config client env st envKey with
        | StepResult.ok st' => fetchLoop config client env st' ks
        | r => r) = _
  rw [hstep]

/-- C8 witness: a singular definition with no destination and no global
sink is skipped, leaving the state untouched. -/
theorem C8_no_sink_definition_skipped_witness :
    fetchStep cfgNoSinks nullClient envSingularApi ⟨[], []⟩ "VAULT_SECRET_API"
      = StepResult.ok ⟨[], []⟩ :=
  (C8_no_sink_definition_skipped cfgNoSinks nullClient envSingularApi ⟨[], []⟩
      "VAULT_SECRET_API" ⟨"VAULT_SECRET_API", "API", "secret/app/api", "", [], false,
        ["secret/app/api"]⟩ [] rfl rfl rfl rfl).1

/-! ## Helper lemmas: output dispatch -/

theorem writeFileFS_log_filter (st : SysState) (path content q : String) :
    (writeFileFS st path content).log.filter (fun w => w.1 == q)
      = st.log.filter (fun w => w.1 == q)
        ++ (if (path == q) = true then [(path, content)] else []) := by
  show (st.log ++ [(path, content)]).filter (fun w => w.1 == q) = _
  rw [List.filter_append]
  congr 1
  cases h : (path == q) <;> simp [List.filter, h]

theorem foldl_writeFile_log_filter (l : List (String × String)) (dest q : String)
    (st : SysState) (hb : (dest == q) = false) :
    (l.foldl (fun s p => writeFileFS s dest p.2) st).log.filter (fun w => w.1 == q)
      = st.log.filter (fun w => w.1 == q) := by
  induction l generalizing st with
  | nil => rfl
  | cons x xs ih =>
    show ((xs.foldl (fun s p => writeFileFS s dest p.2)
        (writeFileFS st dest x.2)).log.filter (fun w => w.1 == q)) = _
    rw [ih, writeFileFS_log_filter, hb]
    simp

theorem writeDest_log_filter (d : SecretDefinition) (st : SysState) (q : String)
    (hd : d.OutputDestination ≠ q) :
    (writeSecretsToDestination d st).log.filter (fun w => w.1 == q)
      = st.log.filter (fun w => w.1 == q) := by
  have hb : (d.OutputDestination == q) = false := by simp [hd]
  unfold writeSecretsToDestination
  cases hp : d.plural with
  | true =>
    rw [if_pos rfl]
    unfold writeJSONSecrets
    rw [writeFileFS_log_filter, hb]
    simp
  | false =>
    rw [if_neg (by simp)]
    exact foldl_writeFile_log_filter d.secrets d.OutputDestination q st hb

theorem dispatchDef_fs_payload (config : Config) (st : SysState) (d : SecretDefinition)
    (hp : config.SecretPayloadPath ≠ "") :
    lookupKV (dispatchDef config st d).fs config.SecretPayloadPath
      = some (jsonMarshal d.secrets) := by
  unfold dispatchDef
  rw [if_pos hp]
  exact lookupKV_insertKV_self _ _ _

theorem dispatchDef_log_filter (config : Config) (st : SysState) (d : SecretDefinition)
    (hp : config.SecretPayloadPath ≠ "")
    (hd : d.OutputDestination ≠ config.SecretPayloadPath) :
    (dispatchDef config st d).log.filter (fun w => w.1 == config.SecretPayloadPath)
      = st.log.filter (fun w => w.1 == config.SecretPayloadPath)
        ++ [(config.SecretPayloadPath, jsonMarshal d.secrets)] := by
  unfold dispatchDef
  rw [if_pos hp]
  show (writeFileFS (if d.OutputDestination ≠ "" then
        writeSecretsToDestination d (if config.SecretEnv then setEnvSecrets d.secrets st else st)
        else (if config.SecretEnv then setEnvSecrets d.secrets st else st))
      config.SecretPayloadPath (jsonMarshal d.secrets)).log.filter
        (fun w => w.1 == config.SecretPayloadPath) = _
  rw [writeFileFS_log_filter]
  rw [show (config.SecretPayloadPath == config.SecretPayloadPath) = true by simp]
  simp only [if_true]
  congr 1
  have henvlog : ∀ b : Bool,
      ((if b = true then setEnvSecrets d.secrets st else st)).log = st.log := by
    intro b
    cases b <;> rfl
  by_cases hdst : d.OutputDestination ≠ ""
  · rw [if_pos hdst, writeDest_log_filter _ _ _ hd]
    cases hE : config.SecretEnv <;> simp only [Bool.false_eq_true] <;> rfl
  · rw [if_neg hdst]
    cases hE : config.SecretEnv <;> simp only [Bool.false_eq_true] <;> rfl

theorem dispatchAll_fs_payload (config : Config) (st : SysState)
    (defs : List SecretDefinition) (hp : config.SecretPayloadPath ≠ "") (hne : defs ≠ []) :
    lookupKV (dispatchAll config st defs).fs config.SecretPayloadPath
      = some (jsonMarshal (defs.getLast hne).secrets) := by
  induction defs generalizing st with
  | nil => exact absurd rfl hne
  | cons d rest ih =>
    cases rest with
    | nil => exact dispatchDef_fs_payload config st d hp
    | cons d' rest' =>
      show lookupKV (dispatchAll config (dispatchDef config st d) (d' :: rest')).fs
          config.SecretPayloadPath = _
      rw [ih (dispatchDef config st d) (List.cons_ne_nil d' rest')]
      congr 1

theorem dispatchAll_log_filter (config : Config) (st : SysState)
    (defs : List SecretDefinition) (hp : config.SecretPayloadPath ≠ "")
    (hnc : ∀ d ∈ defs, d.OutputDestination ≠ config.SecretPayloadPath) :
    (dispatchAll config st defs).log.filter (fun w => w.1 == config.SecretPayloadPath)
      = st.log.filter (fun w => w.1 == config.SecretPayloadPath)
        ++ defs.map (fun d => (config.SecretPayloadPath, jsonMarshal d.secrets)) := by
  induction defs generalizing st with
  | nil => simp [dispatchAll]
  | cons d rest ih =>
    show (dispatchAll config (dispatchDef config st d) rest).log.filter
        (fun w => w.1 == config.SecretPayloadPath) = _
    rw [ih (dispatchDef config st d) (fun x hx => hnc x (List.mem_cons_of_mem _ hx))]
    rw [dispatchDef_log_filter config st d hp (hnc d (List.mem_cons_self _ _))]
    simp

/-- C7: with a consolidated payload path configured, dispatch marshals
every definition's secrets mapping to JSON and writes it to that same
path once per definition in discovery order (shown by the write log, for
definitions whose own destination is a different path), each write
replacing the file's content, so after dispatch the path holds exactly
the JSON of the last definition's secrets. -/
theorem C7_payload_overwritten_per_definition (config : Config) (st : SysState)
    (defs : List SecretDefinition) (hp : config.SecretPayloadPath ≠ "")
    (hne : defs ≠ []) :
    lookupKV (dispatchAll config st defs).fs config.SecretPayloadPath
      = some (jsonMarshal (defs.getLast hne).secrets)
  ∧ ((∀ d ∈ defs, d.OutputDestination ≠ config.SecretPayloadPath) →
      (dispatchAll config st defs).log.filter (fun w => w.1 == config.SecretPayloadPath)
        = st.log.filter (fun w => w.1 == config.SecretPayloadPath)
          ++ defs.map (fun d => (config.SecretPayloadPath, jsonMarshal d.secrets))) :=
  ⟨dispatchAll_fs_payload config st defs hp hne,
   fun hnc => dispatchAll_log_filter config st defs hp hnc⟩

/-- C7 witness: with two definitions, the payload file is written twice in
order and ends up holding only the second definition's secrets. -/
theorem C7_payload_overwritten_per_definition_witness :
    lookupKV (dispatchAll cfgPayload sysStart defsPayloadEx).fs "/out/all.json"
      = some (jsonMarshal [("B", "v2")])
  ∧ (dispatchAll cfgPayload sysStart defsPayloadEx).log.filter
        (fun w => w.1 == "/out/all.json")
      = [("/out/all.json", jsonMarshal [("A", "v1")]),
         ("/out/all.json", jsonMarshal [("B", "v2")])] := by
  have h := C7_payload_overwritten_per_definition cfgPayload sysStart defsPayloadEx
    (by decide) (by decide)
  exact ⟨h.1, h.2 (by decide)⟩

/-- C9: for any multiset of M submitted paths and any engine concurrency
N ≥ 1, every completed engine execution (no request still queued or in
flight) has published exactly M results, and the multiset of result paths
equals the multiset of submitted paths — no result dropped, no path read
twice. -/
theorem C9_engine_result_conservation (N M : Nat) (hN : 1 ≤ N) (subs : Multiset String)
    (hM : Multiset.card subs = M) (s : EngineState)
    (hreach : Relation.ReflTransGen (EngineStep N) (engineInit subs) s)
    (hq : s.queued = 0) (hf : s.inFlight = 0) :
    s.done = subs ∧ Multiset.card s.done = M := by
  have hinv := engineReach_inv N subs s hreach
  unfold engineInv at hinv
  rw [hq, hf, zero_add, zero_add] at hinv
  exact ⟨hinv, by rw [hinv, hM]⟩

/-- C9 witness: a one-submission run at concurrency one completes with
exactly that path published once. -/
theorem C9_engine_result_conservation_witness :
    engineFinalEx.done = ({"a"} : Multiset String)
  ∧ Multiset.card engineFinalEx.done = 1 := by
  have step1 : EngineStep 1 (engineInit {"a"}) engineMidEx :=
    EngineStep.take "a" (engineInit {"a"}) (by decide) (by decide)
  have step2 : EngineStep 1 engineMidEx engineFinalEx :=
    EngineStep.finish "a" engineMidEx (by decide)
  exact C9_engine_result_conservation 1 1 (by decide) {"a"} (by decide) engineFinalEx
    (Relation.ReflTransGen.tail (Relation.ReflTransGen.tail Relation.ReflTransGen.refl step1)
      step2)
    (by decide) (by decide)
